import Mathlib

/-!
Verification of the Merkle hashing core in `zwaves_primitives/src/hasher.rs`.

The module is a compression-based Merkle commitment engine: leaf hashing,
path-based root reconstruction (`root`), and a batched contiguous-range
root update (`update_root`).  The external Pedersen hash and the field are
black-box collaborators here, so the embedding is parametric in a structure
`PedersenHasher F` carrying the external primitive (`pedersen`), the
little-endian representation bit stream of a field element (`reprBits`,
the Rust `BitIteratorLe::new(x.into_repr())` stream), the canonical bit
width `numBits` (`E::Fr::NUM_BITS`) and the field's `zero`.

Machine integers (`usize`, `u32`) are modelled as `Nat`, with the `as u32`
cast written explicitly as `% 2 ^ 32`.  Slice indexing that can panic is
modelled with `Option`: a panic (failed `assert!`, out-of-bounds index) is
`none`.
-/

namespace ZwHash

/-- The `sapling_crypto::pedersen_hash::Personalization` tag. -/
inductive Personalization where
  | noteCommitment : Personalization
  | merkleTree : Nat → Personalization
deriving DecidableEq

/-- The environment of `PedersenHasher<E>`: the external Pedersen hash
primitive, the representation bit stream, `NUM_BITS` and the field zero. -/
structure PedersenHasher (F : Type) where
  pedersen : Personalization → List Bool → F
  reprBits : F → List Bool
  numBits : Nat
  zero : F

variable {F : Type}

/-- Transcribes `PedersenHasher::hash_bits`. -/
def hash_bits (h : PedersenHasher F) (input : List Bool) : F :=
  h.pedersen Personalization.noteCommitment input

/-- Transcribes `PedersenHasher::get_bits_le_fixed`: take `n` bits of the LE bit
stream, then zero-extend to length `n`. -/
def get_bits_le_fixed (h : PedersenHasher F) (data : F) (n : Nat) : List Bool :=
  let r := (h.reprBits data).take n
  r ++ List.replicate (n - r.length) false

/-- Transcribes `PedersenHasher::hash`. -/
def hash (h : PedersenHasher F) (data : F) : F :=
  hash_bits h (get_bits_le_fixed h data h.numBits)

/-- Transcribes `PedersenHasher::compress`: Pedersen hash of the first `NUM_BITS` LE
bits of `left` chained with the first `NUM_BITS` LE bits of `right`. -/
def compress (h : PedersenHasher F) (left right : F) (p : Personalization) : F :=
  h.pedersen p ((h.reprBits left).take h.numBits ++ (h.reprBits right).take h.numBits)

/-- Transcribes `PedersenHasher::root`: guard on absent entries, then fold the
enumerated path with an `Option` accumulator starting at `None`.
`Option::unwrap` on values the guard has established are present is
modelled with `Option.getD`. -/
def root (h : PedersenHasher F) (path : List (Option (F × Bool))) (list : Option F) :
    Option F :=
  if list.isNone || path.any Option.isNone then
    none
  else
    path.enum.foldl (fun res val =>
      let num := val.1
      let data := val.2.getD (h.zero, false)
      let sipling := data.1
      let posBit := data.2
      let prevOrList := (res.or list).getD h.zero
      let left := if posBit then sipling else prevOrList
      let right := if posBit then prevOrList else sipling
      some (compress h left right (Personalization.merkleTree num))) none

/-- In-bounds list write; an out-of-bounds write is a Rust panic (`none`). -/
def setChecked (l : List F) (i : Nat) (a : F) : Option (List F) :=
  if i < l.length then some (l.set i a) else none

/-- The compression loop of one `update_root` level:
`(0..pairs).for_each(|j| { let res = compress(frame[2j], frame[2j+1], MerkleTree(i)); frame[j+offset] = &res; })`,
with reads and writes bounds-checked. -/
def pairLoop (h : PedersenHasher F) (i offset : Nat) (frame : List F) (pairs : Nat) :
    Option (List F) :=
  (List.range pairs).foldlM (fun f j => do
    let a ← f.get? (j * 2)
    let b ← f.get? (j * 2 + 1)
    setChecked f (j + offset) (compress h a b (Personalization.merkleTree i))) frame

/-- One iteration of the `(1..height)` loop of `update_root`, acting on
the state `(memframe, memframesz)`. -/
def levelStep (h : PedersenHasher F) (path dflts : List F) (index : Nat)
    (st : List F × Nat) (i : Nat) : Option (List F × Nat) :=
  let offset := (index >>> i) % 2
  let msz1 := offset + (st.2 + 1) / 2
  (pairLoop h i offset st.1 ((st.2 + 1) / 2)).bind (fun frame1 =>
    (if msz1 % 2 = 1 then (dflts.get? i).bind (fun d => setChecked frame1 msz1 d)
      else some frame1).bind (fun frame2 =>
      (if 0 < offset then (path.get? i).bind (fun p => setChecked frame2 0 p)
        else some frame2).bind (fun frame3 =>
        some (frame3, msz1))))

/-- The initial working frame of `update_root`: a `memframesz + 1` frame of
zeros, the elements written at `[offset, offset+s)`, and, when `offset > 0`,
`path[0]` written at slot 0. -/
def init_frame (h : PedersenHasher F) (path : List F) (index : Nat) (elements : List F) :
    Option (List F) :=
  let offset := index % 2
  let s := elements.length
  let frame0 := List.replicate (s + offset + 1) h.zero
  let frame1 := (List.range s).foldl (fun f i => f.set (i + offset) (elements.getD i h.zero)) frame0
  if 0 < offset then do
    let p ← path.get? 0
    setChecked frame1 0 p
  else
    some frame1

/-- The capacity `assert!` of `update_root`:
`(index + s) as u32 <= u32::pow(2, (height - 1) as u32)`, with the `u32`
casts written as `% 2 ^ 32`. -/
def capacity_ok (index s height : Nat) : Bool :=
  (index + s) % 2 ^ 32 ≤ 2 ^ ((height - 1) % 2 ^ 32) % 2 ^ 32

/-- Transcribes `PedersenHasher::update_root`.  The result is `none` exactly when the
Rust function panics (failed assert or out-of-bounds slice index). -/
def update_root (h : PedersenHasher F) (path : List F) (index : Nat)
    (elements : List F) (merkle_defaults : List F) : Option F :=
  let s := elements.length
  let height := path.length + 1
  if capacity_ok index s height then do
    let frame ← init_frame h path index elements
    let res ← (List.range' 1 path.length).foldlM
      (levelStep h path merkle_defaults index) (frame, s + index % 2)
    res.1.get? 0
  else
    none

/-! ### Specification-side definitions

These follow the natural-language description of the algorithms, for
comparison with the transcribed code above. -/

/-- The fold step of the spec's description of `root` (§4.2): at step
`num` with sibling `s` and position bit `b`, the new accumulator is
`compress(s, acc)` when `b` is true and `compress(acc, s)` when `b` is
false, at `TreeLevel(num)`. -/
def root_fold (h : PedersenHasher F) (leaf : F) (path : List (F × Bool)) : F :=
  path.enum.foldl (fun acc val =>
    compress h (if val.2.2 then val.2.1 else acc) (if val.2.2 then acc else val.2.1)
      (Personalization.merkleTree val.1)) leaf

/-- Modelled from the spec (§4.3, steps 1–3): the initial working frame as
a plain list — `path[0]` when `offset = 1`, the new leaves, and a zero
padding slot when the frame size `offset + s` is odd. -/
def spec_init (h : PedersenHasher F) (path : List F) (index : Nat) (elements : List F) :
    List F :=
  let offset := index % 2
  let msz := elements.length + offset
  (if 0 < offset then [path.getD 0 h.zero] else []) ++ elements ++
    (if msz % 2 = 1 then [h.zero] else [])

/-- Modelled from the spec (§4.3, step 4): one functional level pass.  The
frame `E` always has even length (the padding slot included); adjacent
pairs are compressed with `TreeLevel(i)` and placed after `path[i]` when
the offset bit is set; a `defaults[i]` padding slot is appended when the
new frame size is odd. -/
def spec_level (h : PedersenHasher F) (path dflts : List F) (index : Nat)
    (E : List F) (i : Nat) : List F :=
  let offset := (index >>> i) % 2
  let pairs := E.length / 2
  let comp := (List.range pairs).map (fun j =>
    compress h (E.getD (2 * j) h.zero) (E.getD (2 * j + 1) h.zero)
      (Personalization.merkleTree i))
  let sz := offset + pairs
  (if 0 < offset then [path.getD i h.zero] else []) ++ comp ++
    (if sz % 2 = 1 then [dflts.getD i h.zero] else [])

/-- Modelled from the spec (§4.3): the batched update as a functional fold
of level passes; the root is the head of the final frame. -/
def spec_update_root (h : PedersenHasher F) (path : List F) (index : Nat)
    (elements : List F) (dflts : List F) : F :=
  ((List.range' 1 path.length).foldl (spec_level h path dflts index)
    (spec_init h path index elements)).getD 0 h.zero

/-- Modelled from the spec (§3, §8): one bottom-up rebuild level — the
level-`i` nodes are the compressions of adjacent pairs of level-`i`
children under `TreeLevel(i)` (`n = 0` at the leaves' parent). -/
def rebuild_level (h : PedersenHasher F) (L : List F) (i : Nat) : List F :=
  (List.range (L.length / 2)).map (fun k =>
    compress h (L.getD (2 * k) h.zero) (L.getD (2 * k + 1) h.zero)
      (Personalization.merkleTree i))

/-- Modelled from the spec (§8, batch-update equivalence): the root of the
full bottom-up rebuild of a tree of the given height from its complete
leaf layer. -/
def rebuild_root (h : PedersenHasher F) (height : Nat) (leaves : List F) : F :=
  ((List.range (height - 1)).foldl (rebuild_level h) leaves).getD 0 h.zero

/-- Modelled from the spec (§3): the defaults table entry `i` is the hash
of a fully empty subtree of height `i` — zero at height 0, and the
self-compression of the height-`i` default under `TreeLevel(i)` (the tag
combining level-`i` nodes) above it. -/
def default_subtree (h : PedersenHasher F) : Nat → F
  | 0 => h.zero
  | i + 1 => compress h (default_subtree h i) (default_subtree h i)
      (Personalization.merkleTree i)

/-! ### Concrete hasher instances for witnesses and counterexamples -/

/-- A degenerate hasher over `Nat`: every hash is `0`. -/
def trivialHasher : PedersenHasher Nat :=
  { pedersen := fun _ _ => 0, reprBits := fun _ => [], numBits := 0, zero := 0 }

/-- A hasher over `Nat` whose representation stream of `n` is `n` ones,
with a canonical width of 3 bits. -/
def unaryHasher : PedersenHasher Nat :=
  { pedersen := fun _ l => l.length
    reprBits := fun n => List.replicate n true
    numBits := 3
    zero := 0 }

/-- The prefix-free code of a personalization tag, used by `tagHasher`. -/
def tagCode : Personalization → List Bool
  | Personalization.noteCommitment => [false]
  | Personalization.merkleTree n => List.replicate (n + 1) true ++ [false]

/-- An injective-on-small-terms hasher over bit lists: a hash is the tag
code followed by the input bits, and the representation stream is the
value itself (truncated to 64 bits by `compress`). -/
def tagHasher : PedersenHasher (List Bool) :=
  { pedersen := fun p l => tagCode p ++ l
    reprBits := fun l => l
    numBits := 64
    zero := [] }

/-- Distinct concrete nonzero leaf values for the `tagHasher` instance. -/
def leafVal (n : Nat) : List Bool := List.replicate (n + 1) false ++ [true]

/-! ### Helper lemmas -/

theorem take_pad_eq_map (l : List Bool) (n : Nat) :
    l.take n ++ List.replicate (n - (l.take n).length) false
      = (List.range n).map (fun i => l.getD i false) := by
  induction l generalizing n with
  | nil =>
      simp only [List.take_nil, List.nil_append, List.length_nil, Nat.sub_zero,
        List.getD_nil]
      rw [List.map_const', List.length_range]
  | cons a l ih =>
      cases n with
      | zero => simp
      | succ n =>
          simp only [List.take_succ_cons, List.length_cons, List.range_succ_eq_map,
            List.map_cons, List.map_map, List.cons_append]
          have h1 : (a :: l).getD 0 false = a := rfl
          have h2 : ((fun i => (a :: l).getD i false) ∘ Nat.succ)
              = (fun i => l.getD i false) := by
            funext i; rfl
          rw [h1, h2, Nat.succ_sub_succ, ih]

theorem get?_eq_some_getD (l : List F) (j : Nat) (z : F) (hj : j < l.length) :
    l.get? j = some (l.getD j z) := by
  rw [List.getD_eq_get?]
  cases hsome : l.get? j with
  | none =>
      rw [List.get?_eq_none] at hsome
      omega
  | some w => rfl

/-- Ceiling division, `(a + b - 1) / b`. -/
def cdiv (a b : Nat) : Nat := (a + b - 1) / b

theorem cdiv_le_iff (t m n : Nat) (hm : 0 < m) : cdiv t m ≤ n ↔ t ≤ m * n := by
  unfold cdiv
  rw [Nat.div_le_iff_le_mul_add_pred hm]
  omega

theorem cdiv_one (t : Nat) : cdiv t 1 = t := by
  unfold cdiv
  omega

theorem cdiv_two (t m : Nat) (hm : 0 < m) : (cdiv t m + 1) / 2 = cdiv t (2 * m) := by
  have h2 : ∀ n, (cdiv t m + 1) / 2 ≤ n ↔ t ≤ 2 * m * n := by
    intro n
    rw [Nat.div_le_iff_le_mul_add_pred (show (0 : Nat) < 2 by omega)]
    constructor
    · intro hx
      have h1 : cdiv t m ≤ 2 * n := by omega
      have h2 := (cdiv_le_iff t m (2 * n) hm).mp h1
      calc t ≤ m * (2 * n) := h2
        _ = 2 * m * n := by ring
    · intro hx
      have h1 : t ≤ m * (2 * n) := by
        calc t ≤ 2 * m * n := hx
          _ = m * (2 * n) := by ring
      have h2 := (cdiv_le_iff t m (2 * n) hm).mpr h1
      omega
  have h3 : ∀ n, cdiv t (2 * m) ≤ n ↔ t ≤ 2 * m * n :=
    fun n => cdiv_le_iff t (2 * m) n (by omega)
  exact le_antisymm ((h2 _).mpr ((h3 _).mp le_rfl)) ((h3 _).mpr ((h2 _).mp le_rfl))

theorem msz_step (index t i msz : Nat) (hi : 1 ≤ i)
    (hinv : msz + 2 * (index >>> i) = cdiv t (2 ^ (i - 1))) :
    ((index >>> i) % 2 + (msz + 1) / 2) + 2 * (index >>> (i + 1)) = cdiv t (2 ^ i) := by
  have hq : index >>> (i + 1) = (index >>> i) / 2 := Nat.shiftRight_succ index i
  have hcomp : (cdiv t (2 ^ (i - 1)) + 1) / 2 = cdiv t (2 ^ i) := by
    have hpow : 2 * 2 ^ (i - 1) = 2 ^ i := by
      rw [← pow_succ']
      congr 1
      omega
    rw [cdiv_two t (2 ^ (i - 1)) (Nat.pos_pow_of_pos _ (by omega)), hpow]
  omega

theorem foldl_always_some {α β : Type} (f : Option α → β → Option α)
    (hf : ∀ res val, (f res val).isSome) :
    ∀ (l : List β) (acc : Option α), l ≠ [] → (l.foldl f acc).isSome := by
  intro l
  induction l with
  | nil => intro acc hne; exact absurd rfl hne
  | cons x xs ih =>
      intro acc _
      rw [List.foldl_cons]
      cases hxs : xs with
      | nil => simpa using hf acc x
      | cons y ys => exact hxs ▸ ih (f acc x) (by simp [hxs])

theorem write_loop_length (z : F) (el : List F) (offset : Nat) (f0 : List F) :
    ∀ n, ((List.range n).foldl (fun f i => f.set (i + offset) (el.getD i z)) f0).length
      = f0.length := by
  intro n
  induction n with
  | zero => rfl
  | succ n ih =>
      rw [List.range_succ, List.foldl_append, List.foldl_cons, List.foldl_nil,
        List.length_set]
      exact ih

theorem write_loop_get? (z : F) (el : List F) (offset : Nat) (f0 : List F) :
    ∀ n, n + offset ≤ f0.length → ∀ k,
      ((List.range n).foldl (fun f i => f.set (i + offset) (el.getD i z)) f0).get? k
        = if offset ≤ k ∧ k < offset + n then some (el.getD (k - offset) z)
          else f0.get? k := by
  intro n
  induction n with
  | zero =>
      intro _ k
      rw [if_neg (by omega)]
      rfl
  | succ n ih =>
      intro hlen k
      rw [List.range_succ, List.foldl_append, List.foldl_cons, List.foldl_nil]
      by_cases hk : k = n + offset
      · subst hk
        have harith : n + offset - offset = n := by omega
        rw [List.get?_set_eq, if_pos (by omega), harith]
        have hne : ((List.range n).foldl (fun f i => f.set (i + offset) (el.getD i z)) f0).get?
            (n + offset) ≠ none := by
          intro hcon
          rw [List.get?_eq_none, write_loop_length] at hcon
          omega
        cases hsome : ((List.range n).foldl (fun f i => f.set (i + offset) (el.getD i z)) f0).get?
            (n + offset) with
        | none => exact absurd hsome hne
        | some w => rfl
      · rw [List.get?_set_ne _ _ (by omega), ih (by omega) k]
        by_cases hin : offset ≤ k ∧ k < offset + n
        · rw [if_pos hin, if_pos (by omega)]
        · by_cases hin' : offset ≤ k ∧ k < offset + (n + 1)
          · exact absurd ⟨hin'.1, by omega⟩ hin
          · rw [if_neg hin, if_neg hin']

theorem init_frame_get? (h : PedersenHasher F) (path : List F) (index : Nat)
    (elements : List F) (hp : index % 2 = 1 → path ≠ []) :
    ∃ f, init_frame h path index elements = some f
      ∧ f.length = elements.length + index % 2 + 1
      ∧ ∀ k, f.get? k
          = if index % 2 = 1 ∧ k = 0 then path.get? 0
            else if index % 2 ≤ k ∧ k < index % 2 + elements.length then
              some (elements.getD (k - index % 2) h.zero)
            else if k < index % 2 + elements.length + 1 then some h.zero
            else none := by
  have hiff : init_frame h path index elements
      = if 0 < index % 2 then
          (path.get? 0).bind (fun p =>
            setChecked ((List.range elements.length).foldl
              (fun f i => f.set (i + index % 2) (elements.getD i h.zero))
              (List.replicate (elements.length + index % 2 + 1) h.zero)) 0 p)
        else some ((List.range elements.length).foldl
          (fun f i => f.set (i + index % 2) (elements.getD i h.zero))
          (List.replicate (elements.length + index % 2 + 1) h.zero)) := rfl
  set offset := index % 2 with hoff
  set s := elements.length with hs
  set frame1 := (List.range s).foldl
    (fun f i => f.set (i + offset) (elements.getD i h.zero))
    (List.replicate (s + offset + 1) h.zero) with hframe1
  have hflen : frame1.length = s + offset + 1 := by
    rw [hframe1, write_loop_length, List.length_replicate]
  have hfget : ∀ k, frame1.get? k
      = if offset ≤ k ∧ k < offset + s then some (elements.getD (k - offset) h.zero)
        else if k < s + offset + 1 then some h.zero
        else none := by
    intro k
    rw [hframe1,
      write_loop_get? h.zero elements offset _ s (by rw [List.length_replicate]; omega) k]
    by_cases hin : offset ≤ k ∧ k < offset + s
    · rw [if_pos hin, if_pos hin]
    · rw [if_neg hin, if_neg hin]
      by_cases hk : k < s + offset + 1
      · rw [if_pos hk]
        exact List.get?_eq_some.mpr
          ⟨by rw [List.length_replicate]; omega, by simp [List.get_replicate]⟩
      · rw [if_neg hk, List.get?_eq_none, List.length_replicate]
        omega
  rw [hiff]
  have hoffcases : offset = 0 ∨ offset = 1 := by omega
  rcases hoffcases with hzero | hone
  · rw [if_neg (by omega)]
    refine ⟨frame1, rfl, hflen, ?_⟩
    intro k
    rw [if_neg (show ¬(offset = 1 ∧ k = 0) from by omega), hfget k]
    by_cases hin : offset ≤ k ∧ k < offset + s
    · rw [if_pos hin, if_pos hin]
    · rw [if_neg hin, if_neg hin]
      by_cases hk : k < s + offset + 1
      · rw [if_pos hk, if_pos (show k < offset + s + 1 from by omega)]
      · rw [if_neg hk, if_neg (show ¬(k < offset + s + 1) from by omega)]
  · have hpath := hp (by omega)
    have hpathget : ∃ p0, path.get? 0 = some p0 := by
      cases path with
      | nil => exact absurd rfl hpath
      | cons q qs => exact ⟨q, rfl⟩
    obtain ⟨p0, hp0⟩ := hpathget
    rw [if_pos (by omega), hp0]
    have hset : setChecked frame1 0 p0 = some (frame1.set 0 p0) := by
      unfold setChecked
      rw [if_pos (by omega)]
    refine ⟨frame1.set 0 p0, hset, by rw [List.length_set, hflen], ?_⟩
    intro k
    by_cases hk0 : k = 0
    · subst hk0
      have h0 : frame1.get? 0 = some h.zero := by
        rw [hfget 0, if_neg (by omega), if_pos (by omega)]
      rw [List.get?_set_eq, h0, if_pos (show offset = 1 ∧ (0 : Nat) = 0 from by omega)]
      rfl
    · rw [List.get?_set_ne _ _ (by omega),
        if_neg (show ¬(offset = 1 ∧ k = 0) from by omega), hfget k]
      by_cases hin : offset ≤ k ∧ k < offset + s
      · rw [if_pos hin, if_pos hin]
      · rw [if_neg hin, if_neg hin]
        by_cases hk : k < s + offset + 1
        · rw [if_pos hk, if_pos (show k < offset + s + 1 from by omega)]
        · rw [if_neg hk, if_neg (show ¬(k < offset + s + 1) from by omega)]

theorem pairLoop_sim (h : PedersenHasher F) (i offset : Nat) (hoff : offset ≤ 1) :
    ∀ (n : Nat) (f : List F), 2 * n ≤ f.length →
      ∃ g, pairLoop h i offset f n = some g
        ∧ g.length = f.length
        ∧ (∀ k, k < offset → g.get? k = f.get? k)
        ∧ (∀ j, j < n → g.get? (j + offset)
            = some (compress h (f.getD (j * 2) h.zero) (f.getD (j * 2 + 1) h.zero)
                (Personalization.merkleTree i)))
        ∧ (∀ k, n + offset ≤ k → g.get? k = f.get? k) := by
  intro n
  induction n with
  | zero =>
      intro f _
      exact ⟨f, rfl, rfl, fun k _ => rfl, fun j hj => absurd hj (by omega),
        fun k _ => rfl⟩
  | succ m ih =>
      intro f hf
      obtain ⟨g, hgeq, hglen, hpre, hmid, hpost⟩ := ih f (by omega)
      have hg1 : g.get? (m * 2) = f.get? (m * 2) := by
        by_cases hc : m + offset ≤ m * 2
        · exact hpost _ hc
        · exact hpre _ (by omega)
      have hg2 : g.get? (m * 2 + 1) = f.get? (m * 2 + 1) := hpost _ (by omega)
      have hf1 : f.get? (m * 2) = some (f.getD (m * 2) h.zero) :=
        get?_eq_some_getD f (m * 2) h.zero (by omega)
      have hf2 : f.get? (m * 2 + 1) = some (f.getD (m * 2 + 1) h.zero) :=
        get?_eq_some_getD f (m * 2 + 1) h.zero (by omega)
      have hsetok : setChecked g (m + offset)
          (compress h (f.getD (m * 2) h.zero) (f.getD (m * 2 + 1) h.zero)
            (Personalization.merkleTree i))
          = some (g.set (m + offset)
            (compress h (f.getD (m * 2) h.zero) (f.getD (m * 2 + 1) h.zero)
              (Personalization.merkleTree i))) := by
        unfold setChecked
        rw [if_pos (by omega)]
      have hstep : pairLoop h i offset f (m + 1)
          = some (g.set (m + offset)
              (compress h (f.getD (m * 2) h.zero) (f.getD (m * 2 + 1) h.zero)
                (Personalization.merkleTree i))) := by
        unfold pairLoop at hgeq ⊢
        rw [List.range_succ, List.foldlM_append, hgeq]
        simp only [List.foldlM_cons, List.foldlM_nil, Option.bind_eq_bind,
          Option.some_bind]
        rw [hg1, hf1]
        simp only [Option.bind_eq_bind, Option.some_bind]
        rw [hg2, hf2]
        simp only [Option.bind_eq_bind, Option.some_bind]
        rw [hsetok]
        rfl
      refine ⟨_, hstep, by rw [List.length_set]; exact hglen, ?_, ?_, ?_⟩
      · intro k hk
        rw [List.get?_set_ne _ _ (by omega)]
        exact hpre k hk
      · intro j hj
        by_cases hjm : j = m
        · rw [hjm, List.get?_set_eq]
          have hgm : g.get? (m + offset) ≠ none := by
            intro hcon
            rw [List.get?_eq_none, hglen] at hcon
            omega
          cases hsome : g.get? (m + offset) with
          | none => exact absurd hsome hgm
          | some w => rfl
        · rw [List.get?_set_ne _ _ (by omega)]
          exact hmid j (by omega)
      · intro k hk
        rw [List.get?_set_ne _ _ (by omega)]
        exact hpost k (by omega)

theorem level_take_spec (h : PedersenHasher F) (path dflts : List F) (index i : Nat)
    (frame frame3 : List F) (msz : Nat)
    (hmsz : 1 ≤ msz) (hbound : 2 * ((msz + 1) / 2) ≤ frame.length)
    (hb1 : 2 * (((index >>> i) % 2 + (msz + 1) / 2 + 1) / 2) ≤ frame.length)
    (hlen3 : frame3.length = frame.length)
    (h0 : (index >>> i) % 2 = 1 → frame3.get? 0 = some (path.getD i h.zero))
    (hmid3 : ∀ n, (index >>> i) % 2 ≤ n → n < (index >>> i) % 2 + (msz + 1) / 2 →
        frame3.get? n = some (compress h
          (frame.getD ((n - (index >>> i) % 2) * 2) h.zero)
          (frame.getD ((n - (index >>> i) % 2) * 2 + 1) h.zero)
          (Personalization.merkleTree i)))
    (hdef3 : ((index >>> i) % 2 + (msz + 1) / 2) % 2 = 1 →
        frame3.get? ((index >>> i) % 2 + (msz + 1) / 2) = some (dflts.getD i h.zero)) :
    frame3.take (2 * (((index >>> i) % 2 + (msz + 1) / 2 + 1) / 2))
      = spec_level h path dflts index (frame.take (2 * ((msz + 1) / 2))) i := by
  set off := (index >>> i) % 2 with hoffdef
  set q := (msz + 1) / 2 with hqdef
  have hoff : off ≤ 1 := by omega
  have hq1 : 1 ≤ q := by omega
  set msz1 := off + q with hmsz1def
  have hEdef : spec_level h path dflts index (frame.take (2 * q)) i
      = (if 0 < off then [path.getD i h.zero] else [])
        ++ (List.range ((frame.take (2 * q)).length / 2)).map (fun j =>
            compress h ((frame.take (2 * q)).getD (2 * j) h.zero)
              ((frame.take (2 * q)).getD (2 * j + 1) h.zero)
              (Personalization.merkleTree i))
        ++ (if (off + (frame.take (2 * q)).length / 2) % 2 = 1 then
              [dflts.getD i h.zero] else []) := rfl
  have hElen : (frame.take (2 * q)).length = 2 * q := by
    rw [List.length_take]
    omega
  have hEgetD : ∀ k, k < 2 * q →
      (frame.take (2 * q)).getD k h.zero = frame.getD k h.zero := by
    intro k hk
    rw [List.getD_eq_get?, List.getD_eq_get?, List.get?_take hk]
  rw [hEdef, hElen]
  have hq2 : 2 * q / 2 = q := by omega
  rw [hq2]
  set comp := (List.range q).map (fun j =>
    compress h ((frame.take (2 * q)).getD (2 * j) h.zero)
      ((frame.take (2 * q)).getD (2 * j + 1) h.zero)
      (Personalization.merkleTree i)) with hcompdef
  set pre := (if 0 < off then [path.getD i h.zero] else []) with hpredef
  set post := (if msz1 % 2 = 1 then [dflts.getD i h.zero] else []) with hpostdef
  have hprelen : pre.length = off := by
    rw [hpredef]
    rcases (show off = 0 ∨ off = 1 from by omega) with h1 | h1 <;> rw [h1] <;> rfl
  have hcomplen : comp.length = q := by
    rw [hcompdef, List.length_map, List.length_range]
  have hpostlen : post.length = msz1 % 2 := by
    rw [hpostdef]
    rcases (show msz1 % 2 = 0 ∨ msz1 % 2 = 1 from by omega) with h1 | h1 <;>
      rw [h1] <;> rfl
  have hL : 2 * ((msz1 + 1) / 2) = msz1 + msz1 % 2 := by omega
  apply List.ext_get?
  intro n
  by_cases hn : n < msz1 + msz1 % 2
  · rw [List.get?_take (by omega)]
    by_cases hn0 : n < off
    · have hoff1 : off = 1 := by omega
      have hn00 : n = 0 := by omega
      rw [hn00, h0 (by omega), List.get?_append (by rw [List.length_append]; omega),
        List.get?_append (by omega)]
      rw [hpredef, hoff1]
      rfl
    · by_cases hnmid : n < msz1
      · rw [hmid3 n (by omega) (by omega),
          List.get?_append (by rw [List.length_append]; omega),
          List.get?_append_right (by omega)]
        rw [hcompdef, List.get?_map, List.get?_range (show n - pre.length < q by omega)]
        have hidx : n - pre.length = n - off := by omega
        rw [hidx]
        show some _ = some _
        congr 1
        beta_reduce
        rw [hEgetD (2 * (n - off)) (by omega), hEgetD (2 * (n - off) + 1) (by omega),
          Nat.mul_comm 2 (n - off)]
      · have hneq : n = msz1 := by omega
        have hodd : msz1 % 2 = 1 := by omega
        rw [hneq, hdef3 hodd,
          List.get?_append_right (by rw [List.length_append]; omega)]
        rw [List.length_append, hprelen, hcomplen]
        rw [hpostdef, hodd]
        have hz : msz1 - (off + q) = 0 := by omega
        rw [if_pos rfl, hz]
        rfl
  · rw [List.get?_eq_none.mpr, List.get?_eq_none.mpr]
    · rw [List.length_append, List.length_append, hprelen, hcomplen, hpostlen]
      omega
    · rw [List.length_take]
      omega

theorem opt_some_bind {α β : Type} (a : α) (f : α → Option β) :
    (some a).bind f = f a := rfl

theorem get?_set_self_of_lt (l : List F) (n : Nat) (a : F) (hn : n < l.length) :
    (l.set n a).get? n = some a := by
  rw [List.get?_set_eq]
  cases hsome : l.get? n with
  | none =>
      rw [List.get?_eq_none] at hsome
      omega
  | some w => rfl

theorem levelStep_sim (h : PedersenHasher F) (path dflts : List F) (index i : Nat)
    (frame : List F) (msz : Nat)
    (hmsz : 1 ≤ msz) (hbound : 2 * ((msz + 1) / 2) ≤ frame.length)
    (hd : i < dflts.length)
    (hp : (index >>> i) % 2 = 1 → i < path.length) :
    ∃ frame3, levelStep h path dflts index (frame, msz) i
        = some (frame3, (index >>> i) % 2 + (msz + 1) / 2)
      ∧ frame3.length = frame.length
      ∧ frame3.take (2 * (((index >>> i) % 2 + (msz + 1) / 2 + 1) / 2))
          = spec_level h path dflts index (frame.take (2 * ((msz + 1) / 2))) i := by
  have hls : levelStep h path dflts index (frame, msz) i
      = (pairLoop h i ((index >>> i) % 2) frame ((msz + 1) / 2)).bind (fun frame1 =>
          (if ((index >>> i) % 2 + (msz + 1) / 2) % 2 = 1 then
              (dflts.get? i).bind (fun d =>
                setChecked frame1 ((index >>> i) % 2 + (msz + 1) / 2) d)
            else some frame1).bind (fun frame2 =>
            (if 0 < (index >>> i) % 2 then
                (path.get? i).bind (fun p => setChecked frame2 0 p)
              else some frame2).bind (fun frame3 =>
              some (frame3, (index >>> i) % 2 + (msz + 1) / 2)))) := rfl
  set off := (index >>> i) % 2 with hoffdef
  set q := (msz + 1) / 2 with hqdef
  set msz1 := off + q with hmsz1def
  have hoff : off ≤ 1 := by omega
  have hq1 : 1 ≤ q := by omega
  have hb1 : 2 * ((msz1 + 1) / 2) ≤ frame.length := by omega
  obtain ⟨g, hgeq, hglen, hpre, hmid, hpost⟩ := pairLoop_sim h i off hoff q frame hbound
  have hdi : dflts.get? i = some (dflts.getD i h.zero) :=
    get?_eq_some_getD dflts i h.zero hd
  -- frame2 : result of the optional defaults write
  by_cases hodd : msz1 % 2 = 1
  all_goals by_cases hoffpos : 0 < off
  -- case: odd, offset set
  · have hpi : path.get? i = some (path.getD i h.zero) :=
      get?_eq_some_getD path i h.zero (hp (by omega))
    have hset1 : setChecked g msz1 (dflts.getD i h.zero)
        = some (g.set msz1 (dflts.getD i h.zero)) := by
      unfold setChecked
      rw [if_pos (by rw [hglen]; omega)]
    have hset2 : setChecked (g.set msz1 (dflts.getD i h.zero)) 0 (path.getD i h.zero)
        = some ((g.set msz1 (dflts.getD i h.zero)).set 0 (path.getD i h.zero)) := by
      unfold setChecked
      rw [if_pos (by rw [List.length_set, hglen]; omega)]
    refine ⟨(g.set msz1 (dflts.getD i h.zero)).set 0 (path.getD i h.zero), ?_, ?_, ?_⟩
    · rw [hls, hgeq, opt_some_bind, if_pos hodd, hdi, opt_some_bind, hset1,
        opt_some_bind, if_pos hoffpos, hpi, opt_some_bind, hset2, opt_some_bind]
    · rw [List.length_set, List.length_set, hglen]
    · apply level_take_spec h path dflts index i frame _ msz hmsz hbound hb1
      · rw [List.length_set, List.length_set, hglen]
      · intro _
        exact get?_set_self_of_lt _ 0 _ (by rw [List.length_set, hglen]; omega)
      · intro n hn1 hn2
        rw [List.get?_set_ne _ _ (by omega), List.get?_set_ne _ _ (by omega)]
        have hm := hmid (n - off) (by omega)
        have harith : n - off + off = n := by omega
        rw [harith] at hm
        exact hm
      · intro _
        rw [List.get?_set_ne _ _ (by omega)]
        exact get?_set_self_of_lt _ msz1 _ (by rw [hglen]; omega)
  -- case: odd, offset clear
  · have hset1 : setChecked g msz1 (dflts.getD i h.zero)
        = some (g.set msz1 (dflts.getD i h.zero)) := by
      unfold setChecked
      rw [if_pos (by rw [hglen]; omega)]
    refine ⟨g.set msz1 (dflts.getD i h.zero), ?_, ?_, ?_⟩
    · rw [hls, hgeq, opt_some_bind, if_pos hodd, hdi, opt_some_bind, hset1,
        opt_some_bind, if_neg hoffpos, opt_some_bind]
    · rw [List.length_set, hglen]
    · apply level_take_spec h path dflts index i frame _ msz hmsz hbound hb1
      · rw [List.length_set, hglen]
      · intro hcon
        omega
      · intro n hn1 hn2
        rw [List.get?_set_ne _ _ (by omega)]
        have hm := hmid (n - off) (by omega)
        have harith : n - off + off = n := by omega
        rw [harith] at hm
        exact hm
      · intro _
        exact get?_set_self_of_lt _ msz1 _ (by rw [hglen]; omega)
  -- case: even, offset set
  · have hpi : path.get? i = some (path.getD i h.zero) :=
      get?_eq_some_getD path i h.zero (hp (by omega))
    have hset2 : setChecked g 0 (path.getD i h.zero)
        = some (g.set 0 (path.getD i h.zero)) := by
      unfold setChecked
      rw [if_pos (by rw [hglen]; omega)]
    refine ⟨g.set 0 (path.getD i h.zero), ?_, ?_, ?_⟩
    · rw [hls, hgeq, opt_some_bind, if_neg hodd, opt_some_bind, if_pos hoffpos,
        hpi, opt_some_bind, hset2, opt_some_bind]
    · rw [List.length_set, hglen]
    · apply level_take_spec h path dflts index i frame _ msz hmsz hbound hb1
      · rw [List.length_set, hglen]
      · intro _
        exact get?_set_self_of_lt _ 0 _ (by rw [hglen]; omega)
      · intro n hn1 hn2
        rw [List.get?_set_ne _ _ (by omega)]
        have hm := hmid (n - off) (by omega)
        have harith : n - off + off = n := by omega
        rw [harith] at hm
        exact hm
      · intro hcon
        omega
  -- case: even, offset clear
  · refine ⟨g, ?_, hglen, ?_⟩
    · rw [hls, hgeq, opt_some_bind, if_neg hodd, opt_some_bind, if_neg hoffpos,
        opt_some_bind]
    · apply level_take_spec h path dflts index i frame _ msz hmsz hbound hb1
      · exact hglen
      · intro hcon
        omega
      · intro n hn1 hn2
        have hm := hmid (n - off) (by omega)
        have harith : n - off + off = n := by omega
        rw [harith] at hm
        exact hm
      · intro hcon
        omega

theorem loop_sim (h : PedersenHasher F) (path dflts : List F) (index t : Nat)
    (hdlen : path.length + 1 ≤ dflts.length)
    (hidx : index < 2 ^ path.length) :
    ∀ (len lo : Nat), 1 ≤ lo → lo + len = path.length + 1 →
      ∀ (frame : List F) (msz : Nat),
        1 ≤ msz →
        2 * ((msz + 1) / 2) ≤ frame.length →
        msz + 2 * (index >>> lo) = cdiv t (2 ^ (lo - 1)) →
        ∃ frameF mszF,
          (List.range' lo len).foldlM (levelStep h path dflts index) (frame, msz)
              = some (frameF, mszF)
            ∧ frameF.length = frame.length
            ∧ mszF + 2 * (index >>> (lo + len)) = cdiv t (2 ^ (lo + len - 1))
            ∧ 1 ≤ mszF
            ∧ frameF.take (2 * ((mszF + 1) / 2))
                = (List.range' lo len).foldl (spec_level h path dflts index)
                    (frame.take (2 * ((msz + 1) / 2))) := by
  intro len
  induction len with
  | zero =>
      intro lo hlo hsum frame msz hmsz hbound hinv
      exact ⟨frame, msz, rfl, rfl, by simpa using hinv, hmsz, rfl⟩
  | succ len ih =>
      intro lo hlo hsum frame msz hmsz hbound hinv
      have hd : lo < dflts.length := by omega
      have hp : (index >>> lo) % 2 = 1 → lo < path.length := by
        intro hbit
        by_contra hcon
        have hle : 2 ^ path.length ≤ 2 ^ lo :=
          Nat.pow_le_pow_right (by omega) (by omega)
        have hz : index >>> lo = 0 := by
          rw [Nat.shiftRight_eq_div_pow]
          exact Nat.div_eq_of_lt (by omega)
        rw [hz] at hbit
        simp at hbit
      obtain ⟨frame3, hstep, hlen3, htake⟩ :=
        levelStep_sim h path dflts index lo frame msz hmsz hbound hd hp
      have hmsz1 : 1 ≤ (index >>> lo) % 2 + (msz + 1) / 2 := by omega
      have hbound1 : 2 * (((index >>> lo) % 2 + (msz + 1) / 2 + 1) / 2)
          ≤ frame3.length := by
        rw [hlen3]
        omega
      have hinv1 : (index >>> lo) % 2 + (msz + 1) / 2 + 2 * (index >>> (lo + 1))
          = cdiv t (2 ^ (lo + 1 - 1)) := by
        rw [Nat.add_sub_cancel]
        exact msz_step index t lo msz hlo hinv
      obtain ⟨frameF, mszF, hfold, hlenF, hinvF, hmszF, htakeF⟩ :=
        ih (lo + 1) (by omega) (by omega) frame3
          ((index >>> lo) % 2 + (msz + 1) / 2) hmsz1 hbound1 hinv1
      refine ⟨frameF, mszF, ?_, hlenF.trans hlen3, ?_, hmszF, ?_⟩
      · rw [List.range'_succ, List.foldlM_cons, hstep]
        simp only [Option.bind_eq_bind, Option.some_bind]
        exact hfold
      · have harith1 : lo + 1 + len = lo + (len + 1) := by omega
        rw [harith1] at hinvF
        exact hinvF
      · rw [List.range'_succ, List.foldl_cons, htakeF, htake]

theorem init_take_spec (h : PedersenHasher F) (path elements : List F) (index : Nat)
    (hp : index % 2 = 1 → path ≠ []) :
    ∃ f0, init_frame h path index elements = some f0
      ∧ f0.length = elements.length + index % 2 + 1
      ∧ f0.take (2 * ((elements.length + index % 2 + 1) / 2))
          = spec_init h path index elements := by
  obtain ⟨f, hf, hflen, hfget⟩ := init_frame_get? h path index elements hp
  refine ⟨f, hf, hflen, ?_⟩
  have hSdef : spec_init h path index elements
      = (if 0 < index % 2 then [path.getD 0 h.zero] else []) ++ elements ++
          (if (elements.length + index % 2) % 2 = 1 then [h.zero] else []) := rfl
  rw [hSdef]
  set off := index % 2 with hoffdef
  set s := elements.length with hsdef
  set pre := (if 0 < off then [path.getD 0 h.zero] else []) with hpredef
  set pad := (if (s + off) % 2 = 1 then [h.zero] else []) with hpaddef
  have hoff : off ≤ 1 := by omega
  have hprelen : pre.length = off := by
    rw [hpredef]
    rcases (show off = 0 ∨ off = 1 from by omega) with h1 | h1 <;> rw [h1] <;> rfl
  have hpadlen : pad.length = (s + off) % 2 := by
    rw [hpaddef]
    rcases (show (s + off) % 2 = 0 ∨ (s + off) % 2 = 1 from by omega) with h1 | h1 <;>
      rw [h1] <;> rfl
  apply List.ext_get?
  intro n
  by_cases hn : n < (s + off) + (s + off) % 2
  · rw [List.get?_take (by omega)]
    by_cases hn0 : n < off
    · have hoff1 : off = 1 := by omega
      have hn00 : n = 0 := by omega
      have hpne : path ≠ [] := hp (by omega)
      have hpget : path.get? 0 = some (path.getD 0 h.zero) :=
        get?_eq_some_getD path 0 h.zero (by
          cases path with
          | nil => exact absurd rfl hpne
          | cons a l => simp)
      rw [hn00, hfget 0, if_pos (by omega), hpget,
        List.get?_append (by rw [List.length_append]; omega),
        List.get?_append (by omega)]
      rw [hpredef, hoff1]
      rfl
    · by_cases hmid : n < off + s
      · rw [hfget n, if_neg (by omega), if_pos (by omega),
          List.get?_append (by rw [List.length_append]; omega),
          List.get?_append_right (by omega), hprelen]
        exact (get?_eq_some_getD elements (n - off) h.zero (by omega)).symm
      · have hneq : n = s + off := by omega
        have hodd : (s + off) % 2 = 1 := by omega
        rw [hneq, hfget (s + off), if_neg (by omega), if_neg (by omega),
          if_pos (by omega),
          List.get?_append_right (by rw [List.length_append]; omega)]
        rw [List.length_append, hprelen]
        rw [hpaddef, hodd, if_pos rfl]
        have hz : s + off - (off + s) = 0 := by omega
        rw [hz]
        rfl
  · rw [List.get?_eq_none.mpr, List.get?_eq_none.mpr]
    · rw [List.length_append, List.length_append, hprelen, hpadlen]
      omega
    · rw [List.length_take]
      omega

/-! ### Claim theorems -/

/-- C7: `get_bits_le_fixed(value, n)` returns exactly `n` bits: entry `i`
is bit `i` of the value's little-endian representation stream when `i` is
below its natural length, and `false` (zero-extension) otherwise; high
bits beyond `n` are silently dropped. -/
theorem c7_get_bits_le_fixed (h : PedersenHasher F) (data : F) (n : Nat) :
    get_bits_le_fixed h data n
      = (List.range n).map (fun i => (h.reprBits data).getD i false) := by
  unfold get_bits_le_fixed
  exact take_pad_eq_map (h.reprBits data) n

/-- C6: `compress(left, right, level)` is the external primitive applied
under the given personalization to the `NUM_BITS`-long little-endian
serialization of `left` followed by that of `right` (left bits first),
whenever the representation streams are at least `NUM_BITS` long (as for
the real field, whose representation has `256 ≥ NUM_BITS = 255` bits). -/
theorem c6_compress_serialization (h : PedersenHasher F) (l r : F) (p : Personalization)
    (hl : h.numBits ≤ (h.reprBits l).length) (hr : h.numBits ≤ (h.reprBits r).length) :
    compress h l r p
        = h.pedersen p (get_bits_le_fixed h l h.numBits ++ get_bits_le_fixed h r h.numBits)
      ∧ (get_bits_le_fixed h l h.numBits).length = h.numBits
      ∧ (get_bits_le_fixed h r h.numBits).length = h.numBits := by
  have key : ∀ x : F, h.numBits ≤ (h.reprBits x).length →
      get_bits_le_fixed h x h.numBits = (h.reprBits x).take h.numBits := by
    intro x hx
    unfold get_bits_le_fixed
    simp [List.length_take, Nat.min_eq_left hx]
  have klen : ∀ x : F, h.numBits ≤ (h.reprBits x).length →
      (get_bits_le_fixed h x h.numBits).length = h.numBits := by
    intro x hx
    rw [key x hx]
    simp [List.length_take, Nat.min_eq_left hx]
  refine ⟨?_, klen l hl, klen r hr⟩
  rw [compress, key l hl, key r hr]

/-- Witness for C6 at a concrete hasher and inputs. -/
theorem c6_compress_serialization_witness :
    (unaryHasher.numBits ≤ (unaryHasher.reprBits 5).length
        ∧ unaryHasher.numBits ≤ (unaryHasher.reprBits 4).length)
      ∧ (compress unaryHasher 5 4 (Personalization.merkleTree 2)
            = unaryHasher.pedersen (Personalization.merkleTree 2)
                (get_bits_le_fixed unaryHasher 5 unaryHasher.numBits
                  ++ get_bits_le_fixed unaryHasher 4 unaryHasher.numBits)
          ∧ (get_bits_le_fixed unaryHasher 5 unaryHasher.numBits).length
              = unaryHasher.numBits
          ∧ (get_bits_le_fixed unaryHasher 4 unaryHasher.numBits).length
              = unaryHasher.numBits) :=
  ⟨⟨by decide, by decide⟩,
    c6_compress_serialization unaryHasher 5 4 (Personalization.merkleTree 2)
      (by decide) (by decide)⟩

/-- C2 (amended): `root` returns a value iff the leaf is present, every
path entry is present, AND the path is nonempty; with an empty path the
fold's `Option` accumulator is never advanced and the result is empty even
for a present leaf.  It never aborts. -/
theorem c2_root_isSome_iff (h : PedersenHasher F) (path : List (Option (F × Bool)))
    (list : Option F) :
    (root h path list).isSome ↔ list.isSome ∧ (∀ e ∈ path, e.isSome) ∧ path ≠ [] := by
  unfold root
  by_cases hg : (list.isNone || path.any Option.isNone) = true
  · rw [if_pos hg]
    simp only [Option.isSome_none, Bool.false_eq_true, false_iff]
    rcases Bool.or_eq_true_iff.mp hg with hn | hn
    · intro ⟨hs, _, _⟩
      rw [Option.isNone_iff_eq_none.mp hn] at hs
      exact absurd hs (by simp)
    · rcases List.any_eq_true.mp hn with ⟨e, he, hne⟩
      intro ⟨_, hall, _⟩
      have := hall e he
      rw [Option.isNone_iff_eq_none.mp hne] at this
      exact absurd this (by simp)
  · rw [if_neg hg]
    have hg' := Bool.or_eq_false_iff.mp (Bool.eq_false_iff.mpr hg)
    constructor
    · intro hsome
      refine ⟨?_, ?_, ?_⟩
      · simpa using hg'.1
      · intro e he
        have := List.any_eq_false.mp hg'.2 e he
        exact Option.ne_none_iff_isSome.mp (by simpa using this)
      · intro hnil
        subst hnil
        simp at hsome
    · intro ⟨_, _, hne⟩
      exact foldl_always_some _ (fun res val => by simp) path.enum none
        (fun henum => hne (by simpa using congrArg List.length henum))

/-- C2 counterexample: with an empty path and a present leaf, `root`
returns the empty result, contradicting the claim that every present leaf
together with a path all of whose entries are present (including the empty
path) yields a value. -/
theorem c2_empty_path_counterexample :
    (root trivialHasher [] (some 7)).isSome = false := by decide

/-- The `Option` fold of `root`, once advanced to `some a`, coincides with
the plain fold of `root_fold`. -/
theorem root_fold_sim (h : PedersenHasher F) (leaf : F) :
    ∀ (l : List (Nat × (F × Bool))) (a : F),
      l.foldl (fun res val => some (compress h
          (if val.2.2 then val.2.1 else (res.or (some leaf)).getD h.zero)
          (if val.2.2 then (res.or (some leaf)).getD h.zero else val.2.1)
          (Personalization.merkleTree val.1))) (some a)
        = some (l.foldl (fun acc val => compress h
            (if val.2.2 then val.2.1 else acc) (if val.2.2 then acc else val.2.1)
            (Personalization.merkleTree val.1)) a) := by
  intro l
  induction l with
  | nil => intro a; rfl
  | cons v l ih =>
      intro a
      rw [List.foldl_cons, List.foldl_cons]
      have hsrc : ((some a).or (some leaf)).getD h.zero = a := rfl
      rw [hsrc]
      exact ih _

/-- C3 (amended): for a present leaf and a NONEMPTY path all of whose
entries are present, `root` folds the path leaf-to-root exactly as the
claim describes; for the empty path it returns the empty result instead
of the start accumulator. -/
theorem c3_root_fold (h : PedersenHasher F) (leaf : F) (path : List (F × Bool))
    (hne : path ≠ []) :
    root h (path.map some) (some leaf) = some (root_fold h leaf path) := by
  unfold root root_fold
  rw [if_neg (by simp [List.any_map, Function.comp])]
  rw [List.enum_map]
  rw [List.foldl_map]
  rcases path with _ | ⟨p, ps⟩
  · exact absurd rfl hne
  · rw [List.enum_cons, List.foldl_cons, List.foldl_cons]
    have h0 : ((none : Option F).or (some leaf)).getD h.zero = leaf := rfl
    simp only [Prod.map, id]
    rw [h0]
    exact root_fold_sim h leaf _ _

/-- Witness for C3 at a concrete hasher and input. -/
theorem c3_root_fold_witness :
    ([((3 : Nat), true)] ≠ [])
      ∧ root trivialHasher ([((3 : Nat), true)].map some) (some 5)
          = some (root_fold trivialHasher 5 [((3 : Nat), true)]) :=
  ⟨by decide, c3_root_fold trivialHasher 5 [((3 : Nat), true)] (by decide)⟩

/-- C3 counterexample: with the empty path the fold described by the claim
returns the start accumulator (the leaf), but `root` returns the empty
result. -/
theorem c3_empty_path_counterexample :
    root trivialHasher [] (some 5) ≠ some (root_fold trivialHasher 5 []) := by decide

/-- C4 counterexample: the capacity assert casts `index + s` to `u32`, so
at `index = 2^32`, `s = 0`, `height = 1` the truncated sum is `0`, the
check passes, and `update_root` returns a root although
`index + s = 2^32 > 2^0 = 1`; the claim requires a fatal failure here. -/
theorem c4_truncation_counterexample :
    capacity_ok (2 ^ 32) 0 1 = true
      ∧ 2 ^ 0 < 2 ^ 32 + 0
      ∧ update_root trivialHasher [] (2 ^ 32) [] [] = some 0 := by decide

/-- C4 (amended): the capacity check compares the `u32`-truncated sum with
`2^(height-1)`; whenever `index + len(elements) < 2^32` and
`height ≤ 32` (so that no truncation occurs) it passes exactly when
`index + len(elements) ≤ 2^(height-1)`, and a failed check makes
`update_root` fail fatally. -/
theorem c4_capacity_check (h : PedersenHasher F) (path elements merkle_defaults : List F)
    (index : Nat) (h1 : index + elements.length < 2 ^ 32) (h2 : path.length < 32) :
    (capacity_ok index elements.length (path.length + 1) = true
        ↔ index + elements.length ≤ 2 ^ path.length)
      ∧ (capacity_ok index elements.length (path.length + 1) = false
        → update_root h path index elements merkle_defaults = none) := by
  have hp : 2 ^ path.length < 2 ^ 32 := Nat.pow_lt_pow_right (by omega) h2
  have hplt : path.length < 2 ^ 32 := by omega
  constructor
  · unfold capacity_ok
    rw [Nat.add_sub_cancel, Nat.mod_eq_of_lt h1, Nat.mod_eq_of_lt hplt,
      Nat.mod_eq_of_lt hp]
    exact decide_eq_true_iff
  · intro hfail
    unfold update_root
    rw [if_neg (by simp [hfail])]

/-- Witness for C4 at a concrete input: a batch of 3 at index 0 over a
height-2 tree exceeds the capacity 2, the check fails, and the call fails. -/
theorem c4_capacity_check_witness :
    (0 + [1, 2, 3].length < 2 ^ 32 ∧ [(0 : Nat)].length < 32)
      ∧ ((capacity_ok 0 [1, 2, 3].length ([(0 : Nat)].length + 1) = true
            ↔ 0 + [1, 2, 3].length ≤ 2 ^ [(0 : Nat)].length)
        ∧ (capacity_ok 0 [1, 2, 3].length ([(0 : Nat)].length + 1) = false
            → update_root trivialHasher [0] 0 [1, 2, 3] [] = none)) :=
  ⟨⟨by decide, by decide⟩,
    c4_capacity_check trivialHasher [0] [1, 2, 3] [] 0 (by decide) (by decide)⟩

/-- C8 counterexample: a defaults table shorter than the height does not
necessarily fail: with height 1 (empty path) and an empty defaults table,
a singleton batch returns its leaf as the root. -/
theorem c8_short_defaults_counterexample :
    ([] : List Nat).length < ([] : List Nat).length + 1
      ∧ update_root trivialHasher [] 0 [5] [] = some 5 := by decide

/-- C8 (amended): a too-short defaults table is fatal only when a level
actually reads a missing entry (an odd-sized frame at an out-of-range
level): with height 1 the defaults are never consulted and a root is
returned, while a height-2 aligned pair batch with an empty defaults
table reads `defaults[1]` and fails. -/
theorem c8_short_defaults (h : PedersenHasher F) (x p a b : F) :
    update_root h [] 0 [x] [] = some x
      ∧ update_root h [p] 0 [a, b] [] = none := by
  constructor
  · with_unfolding_all rfl
  · with_unfolding_all rfl

theorem foldlM_congr_mem {α β : Type} (f g : α → β → Option α) :
    ∀ (l : List β), (∀ st i, i ∈ l → f st i = g st i) →
      ∀ st, l.foldlM f st = l.foldlM g st := by
  intro l
  induction l with
  | nil => intro _ st; rfl
  | cons x xs ih =>
      intro hfg st
      rw [List.foldlM_cons, List.foldlM_cons, hfg st x (by simp)]
      cases hgx : g st x with
      | none => rfl
      | some st' =>
          show xs.foldlM f st' = xs.foldlM g st'
          exact ih (fun st i hi => hfg st i (by simp [hi])) st'

theorem levelStep_defaults_tail (h : PedersenHasher F) (path : List F) (index : Nat)
    (d0 d0' : F) (ds : List F) (st : List F × Nat) (i : Nat) (hi : 1 ≤ i) :
    levelStep h path (d0 :: ds) index st i = levelStep h path (d0' :: ds) index st i := by
  unfold levelStep
  obtain ⟨j, rfl⟩ : ∃ j, i = j + 1 := ⟨i - 1, by omega⟩
  have hsub : (d0 :: ds).get? (j + 1) = (d0' :: ds).get? (j + 1) := by
    rw [List.get?_cons_succ, List.get?_cons_succ]
  simp only [hsub]

/-- C9: when the initial frame size `index % 2 + s` is odd, the padding
slot that the first level pairs with the last element is the field zero
(the frame is allocated filled with zeros and the padding slot is never
overwritten), and `update_root` never reads `defaults[0]`: its result is
unchanged under an arbitrary replacement of the defaults table's entry 0. -/
theorem c9_leaf_padding_zero (h : PedersenHasher F) (path elements : List F) (index : Nat)
    (hodd : (index % 2 + elements.length) % 2 = 1)
    (hp : index % 2 = 1 → path ≠ []) :
    (∃ f, init_frame h path index elements = some f
        ∧ f.get? (elements.length + index % 2) = some h.zero)
      ∧ ∀ (d0 d0' : F) (ds : List F),
          update_root h path index elements (d0 :: ds)
            = update_root h path index elements (d0' :: ds) := by
  constructor
  · obtain ⟨f, hf, hflen, hfget⟩ := init_frame_get? h path index elements hp
    refine ⟨f, hf, ?_⟩
    rw [hfget (elements.length + index % 2)]
    have hne : ¬(index % 2 = 1 ∧ elements.length + index % 2 = 0) := by omega
    rw [if_neg hne, if_neg (by omega), if_pos (by omega)]
  · intro d0 d0' ds
    unfold update_root
    by_cases hc : capacity_ok index elements.length (path.length + 1) = true
    · rw [if_pos hc, if_pos hc]
      cases hinit : init_frame h path index elements with
      | none => rfl
      | some frame =>
          show ((List.range' 1 path.length).foldlM (levelStep h path (d0 :: ds) index)
              (frame, elements.length + index % 2)).bind (fun res => res.1.get? 0)
            = ((List.range' 1 path.length).foldlM (levelStep h path (d0' :: ds) index)
              (frame, elements.length + index % 2)).bind (fun res => res.1.get? 0)
          rw [foldlM_congr_mem (levelStep h path (d0 :: ds) index)
            (levelStep h path (d0' :: ds) index) (List.range' 1 path.length)
            (fun st i hi => levelStep_defaults_tail h path index d0 d0' ds st i
              (List.mem_range'_1.mp hi).1)]
    · rw [if_neg hc, if_neg hc]

/-- Witness for C9 at a concrete input. -/
theorem c9_leaf_padding_zero_witness :
    ((0 % 2 + [(5 : Nat)].length) % 2 = 1 ∧ ((0 : Nat) % 2 = 1 → ([] : List Nat) ≠ []))
      ∧ ((∃ f, init_frame trivialHasher [] 0 [5] = some f
            ∧ f.get? ([(5 : Nat)].length + 0 % 2) = some trivialHasher.zero)
        ∧ ∀ (d0 d0' : Nat) (ds : List Nat),
            update_root trivialHasher [] 0 [5] (d0 :: ds)
              = update_root trivialHasher [] 0 [5] (d0' :: ds)) :=
  ⟨⟨by decide, by decide⟩,
    c9_leaf_padding_zero trivialHasher [] [5] 0 (by decide) (by decide)⟩

/-- C5: under the capacity precondition (nonempty batch,
`index + s ≤ 2^(height-1)`, height at most 32 so the `u32` check is exact,
defaults covering every level), `update_root` succeeds and equals the
spec's functional level-pass description: at level `i` each adjacent pair
of the previous frame is compressed with `TreeLevel(i)` into position
`j + newOffset` of the new frame of size `newOffset + ceil(prev/2)`, with
`defaults[i]` filling an odd trailing slot and `path[i]` filling slot 0
when `newOffset > 0`; after the final level the frame holds exactly one
value (`memframesz = 1`), which is returned as the new root. -/
theorem c5_update_root_spec (h : PedersenHasher F) (path elements dflts : List F)
    (index : Nat)
    (hs : 1 ≤ elements.length)
    (hcap : index + elements.length ≤ 2 ^ path.length)
    (hheight : path.length < 32)
    (hdlen : path.length + 1 ≤ dflts.length) :
    ∃ f0 frameF,
      init_frame h path index elements = some f0
      ∧ (List.range' 1 path.length).foldlM (levelStep h path dflts index)
          (f0, elements.length + index % 2) = some (frameF, 1)
      ∧ update_root h path index elements dflts
          = some (spec_update_root h path index elements dflts)
      ∧ frameF.get? 0 = some (spec_update_root h path index elements dflts) := by
  have hidx : index < 2 ^ path.length := by omega
  have hp : index % 2 = 1 → path ≠ [] := by
    intro h1 hnil
    have hl : path.length = 0 := by rw [hnil]; rfl
    rw [hl] at hidx
    simp at hidx
    omega
  obtain ⟨f0, hf0, hf0len, hf0take⟩ := init_take_spec h path elements index hp
  have hmsz0 : 1 ≤ elements.length + index % 2 := by omega
  have hbound0 : 2 * ((elements.length + index % 2 + 1) / 2) ≤ f0.length := by
    rw [hf0len]
    omega
  have hinv0 : elements.length + index % 2 + 2 * (index >>> 1)
      = cdiv (index + elements.length) (2 ^ (1 - 1)) := by
    rw [Nat.shiftRight_one, show (1 : Nat) - 1 = 0 from rfl, pow_zero, cdiv_one]
    omega
  obtain ⟨frameF, mszF, hfold, hlenF, hinvF, hmszF, htakeF⟩ :=
    loop_sim h path dflts index (index + elements.length) hdlen hidx path.length 1
      (by omega) (by omega) f0 (elements.length + index % 2) hmsz0 hbound0 hinv0
  have hmszF1 : mszF = 1 := by
    have hsh : index >>> (1 + path.length) = 0 := by
      rw [Nat.shiftRight_eq_div_pow]
      apply Nat.div_eq_of_lt
      calc index < 2 ^ path.length := hidx
        _ ≤ 2 ^ (1 + path.length) := Nat.pow_le_pow_right (by omega) (by omega)
    have hexp : 1 + path.length - 1 = path.length := by omega
    rw [hsh, hexp] at hinvF
    have hle : cdiv (index + elements.length) (2 ^ path.length) ≤ 1 :=
      (cdiv_le_iff _ _ 1 (Nat.pos_pow_of_pos _ (by omega))).mpr (by omega)
    have hge : ¬cdiv (index + elements.length) (2 ^ path.length) ≤ 0 := by
      intro hcon
      have := (cdiv_le_iff _ _ 0 (Nat.pos_pow_of_pos _ (by omega))).mp hcon
      omega
    omega
  rw [hmszF1] at hfold htakeF
  have htake2 : frameF.take 2
      = (List.range' 1 path.length).foldl (spec_level h path dflts index)
          (spec_init h path index elements) := by
    rw [← hf0take]
    simpa using htakeF
  have hflenpos : 0 < frameF.length := by
    rw [hlenF, hf0len]
    omega
  have hget0 : frameF.get? 0 = some (frameF.getD 0 h.zero) :=
    get?_eq_some_getD frameF 0 h.zero hflenpos
  have hspec : spec_update_root h path index elements dflts = frameF.getD 0 h.zero := by
    unfold spec_update_root
    rw [← htake2, List.getD_eq_get?, List.getD_eq_get?, List.get?_take (by omega)]
  have hcheck : capacity_ok index elements.length (path.length + 1) = true := by
    unfold capacity_ok
    have hplt : 2 ^ path.length < 2 ^ 32 := Nat.pow_lt_pow_right (by omega) hheight
    rw [Nat.add_sub_cancel, Nat.mod_eq_of_lt (by omega),
      Nat.mod_eq_of_lt (show path.length < 2 ^ 32 by omega),
      Nat.mod_eq_of_lt hplt]
    exact decide_eq_true_iff.mpr hcap
  have hupdate : update_root h path index elements dflts
      = some (frameF.getD 0 h.zero) := by
    unfold update_root
    rw [if_pos hcheck, hf0]
    simp only [Option.bind_eq_bind, Option.some_bind]
    rw [hfold]
    simp only [Option.bind_eq_bind, Option.some_bind]
    exact hget0
  exact ⟨f0, frameF, hf0, hfold, by rw [hupdate, hspec], by rw [hget0, hspec]⟩

/-- Witness for C5 at a concrete input: height 3, index 1, two new leaves. -/
theorem c5_update_root_spec_witness :
    (1 ≤ [(7 : Nat), 8].length ∧ 1 + [(7 : Nat), 8].length ≤ 2 ^ [(3 : Nat), 4].length
        ∧ [(3 : Nat), 4].length < 32
        ∧ [(3 : Nat), 4].length + 1 ≤ [(10 : Nat), 11, 12].length)
      ∧ (∃ f0 frameF,
          init_frame trivialHasher [3, 4] 1 [7, 8] = some f0
          ∧ (List.range' 1 [(3 : Nat), 4].length).foldlM
              (levelStep trivialHasher [3, 4] [10, 11, 12] 1)
              (f0, [(7 : Nat), 8].length + 1 % 2) = some (frameF, 1)
          ∧ update_root trivialHasher [3, 4] 1 [7, 8] [10, 11, 12]
              = some (spec_update_root trivialHasher [3, 4] 1 [7, 8] [10, 11, 12])
          ∧ frameF.get? 0
              = some (spec_update_root trivialHasher [3, 4] 1 [7, 8] [10, 11, 12])) :=
  ⟨⟨by decide, by decide, by decide, by decide⟩,
    c5_update_root_spec trivialHasher [3, 4] [7, 8] [10, 11, 12] 1
      (by decide) (by decide) (by decide) (by decide)⟩

/-- C1 (code bug evidence): at height 4, index 4, a 3-leaf batch, with all
other leaves empty, sibling path entries equal to the rebuilt tree's
unchanged siblings and a defaults table whose entry `i` is the hash of a
fully empty height-`i` subtree, `update_root` completes but its result
differs from the root of the full bottom-up rebuild: the loop tags the
compression of level-`(i-1)` nodes with `TreeLevel(i)` (starting at
`TreeLevel(1)` for the leaves' parents) where the rebuild — like `root`
and the repository's own `test_update_root` oracle — uses
`TreeLevel(i-1)`. -/
theorem c1_update_root_tag_mismatch :
    (update_root tagHasher
        [[], default_subtree tagHasher 1, default_subtree tagHasher 2] 4
        [leafVal 4, leafVal 5, leafVal 6]
        [default_subtree tagHasher 0, default_subtree tagHasher 1,
          default_subtree tagHasher 2, default_subtree tagHasher 3]).isSome = true
      ∧ update_root tagHasher
          [[], default_subtree tagHasher 1, default_subtree tagHasher 2] 4
          [leafVal 4, leafVal 5, leafVal 6]
          [default_subtree tagHasher 0, default_subtree tagHasher 1,
            default_subtree tagHasher 2, default_subtree tagHasher 3]
        ≠ some (rebuild_root tagHasher 4
            [[], [], [], [], leafVal 4, leafVal 5, leafVal 6, []]) := by
  decide

end ZwHash
